import Mathlib

/-!
Verification development for a Rust implementation of Yao's millionaires
protocol built on garbled circuits and RSA-based 1-of-2 oblivious transfer.

The development is a shallow embedding of the sources:
`src/circuit.rs`, `src/garbling.rs`, `src/backend/garbler_backend.rs`,
`src/backend/receiver_backend.rs`, `src/ot.rs`, `src/bin/garbler.rs`,
`src/bin/receiver.rs`.

Conventions of the embedding:
* bytes are `Nat` (a byte value is `< 256` in every concrete run; none of the
  statements below depends on that bound, since all byte operations used by
  the code are XOR, equality and list manipulation);
* byte buffers (`Vec<u8>`, `[u8; 32]`) are `List Nat`;
* the randomness consumed while garbling (`ChaCha20Rng::from_entropy`) is
  made explicit: wire draws are read off a supply `Nat → Wire`, and byte
  draws off a stream `Nat → Nat`, so garbling is the pure deterministic
  function of (circuit, randomness) that the code computes for one choice
  of entropy;
* `Option::unwrap` on a value that the surrounding code always sets is
  modelled with `Option.getD` and a default; the well-formedness theorems
  below show the default branches are never taken on garbling output;
* the files `crypto/aes_ctr.rs` and `crypto/rsa.rs` are not part of the
  sources available here; the cipher and the RSA primitives are modelled
  from the specification (see the doc comments on `ctrXor` and
  `RsaPrivate.decrypt`).
-/

namespace Millionaire

def KEY_SIZE : Nat := 32

/-- A keystream: a function from a 32-byte key and a byte position to the
keystream byte at that position. -/
abbrev Keystream := List Nat → Nat → Nat

/-- Modelled from the spec: `crypto/aes_ctr.rs` is missing from the sources.
Spec §4.1 requires a stream cipher constructed from a 32-byte key with
`encrypt(plaintext, counter)` and `decrypt(ciphertext, counter)` of equal
length that are inverses under the same key and counter, realized as
AES-256 in counter mode.  A counter-mode cipher XORs the data with a
key-dependent keystream; the keystream itself stays abstract (`ks`), and
the counter gives the starting keystream offset. -/
def ctrXor (ks : Keystream) (key : List Nat) : Nat → List Nat → List Nat
  | _, [] => []
  | i, byte :: rest => (byte ^^^ ks key i) :: ctrXor ks key (i + 1) rest

/-- Modelled from the spec: `AesCtr::encrypt` from the missing
`crypto/aes_ctr.rs`, as a counter-mode keystream XOR. -/
def AesCtr.encrypt (ks : Keystream) (key msg : List Nat) (counter : Nat) : List Nat :=
  ctrXor ks key counter msg

/-- Modelled from the spec: `AesCtr::decrypt` from the missing
`crypto/aes_ctr.rs`; in counter mode decryption is the same keystream XOR. -/
def AesCtr.decrypt (ks : Keystream) (key ct : List Nat) (counter : Nat) : List Nat :=
  ctrXor ks key counter ct

/-! ## Plaintext circuits (`src/circuit.rs`) -/

/-- `circuit.rs`: a plaintext node is either an input (with its input id) or
a logic gate holding a 4-bit truth-table integer and two children. -/
inductive Node where
  | input (idx : Nat)
  | gate (op : Nat) (left right : Node)
deriving DecidableEq, Repr

/-- `Node::eval`: the gate output is bit `2·left + right` of `op`.
Rust indexes `input[*idx]` (a panic when out of range); the embedding totalizes
the lookup with `false`, and every theorem below supplies in-range inputs. -/
def Node.eval (node : Node) (input : List Bool) : Bool :=
  match node with
  | .input idx => input.getD idx false
  | .gate op left right =>
    (op &&& (1 <<< (2 * (left.eval input).toNat + (right.eval input).toNat))) != 0

/-- `Node::inputs`: the list of input indices appearing in the tree,
left subtree first. -/
def Node.inputs (node : Node) : List Nat :=
  match node with
  | .input idx => [idx]
  | .gate _ left right => left.inputs ++ right.inputs

/-- `Node::n_inputs`: number of distinct input indices. -/
def Node.n_inputs (node : Node) : Nat :=
  node.inputs.dedup.length

/-- `circuit.rs`: a circuit is the output node plus the cached input count. -/
structure Circuit where
  out : Node
  n : Nat

/-- `Circuit::new`. -/
def Circuit.new (out : Node) : Circuit :=
  ⟨out, out.n_inputs⟩

/-- `Circuit::eval`. -/
def Circuit.eval (c : Circuit) (input : List Bool) : Bool :=
  c.out.eval input

/-- Meaning of a 4-bit truth table applied to two Boolean inputs, exactly the
arithmetic `Node::eval` performs at a gate. -/
def gateSem (op : Nat) (x y : Bool) : Bool :=
  (op &&& (1 <<< (2 * x.toNat + y.toNat))) != 0

/-! ## Wires and garbling (`src/garbling.rs`) -/

/-- `GarbledWire`: an on key and an off key, 32 bytes each in Rust. -/
structure Wire where
  on_key : List Nat
  off_key : List Nat
deriving DecidableEq, Repr

/-- Both labels have the 32-byte length the Rust type `[u8; KEY_SIZE]`
guarantees. -/
def Wire.wf (w : Wire) : Prop :=
  w.on_key.length = KEY_SIZE ∧ w.off_key.length = KEY_SIZE

instance (w : Wire) : Decidable w.wf := by
  unfold Wire.wf; infer_instance

/-- `GarbledWire::new`: `rng.fill(&mut on_key)` runs before
`rng.fill(&mut off_key)`, so the on key is the first 32 bytes of the entropy
stream `r` and the off key the next 32. -/
def Wire.new (r : Nat → Nat) : Wire :=
  { on_key := (List.range KEY_SIZE).map r
    off_key := (List.range KEY_SIZE).map fun i => r (KEY_SIZE + i) }

/-- `GarbledWire::out_wire`: the distinguished output wire, on key all ones
and off key all zeros. -/
def Wire.out_wire : Wire :=
  { on_key := List.replicate KEY_SIZE 1
    off_key := List.replicate KEY_SIZE 0 }

/-- Default wire standing in for a Rust `unwrap` on a field the code always
sets before reading. -/
def dfltWire : Wire := ⟨[], []⟩

/-- `GarbledNode` / `GarbledGate` (garbler view).  The Rust gate is a struct
of back-patched `Option` fields; the `gate` constructor carries them in
source order: `c_00..c_11`, `left`, `right`, `left_wire`, `right_wire`,
`parent_wire`, `op`. -/
inductive GNode where
  | input (idx : Nat)
  | gate (c00 c01 c10 c11 : Option (List Nat))
         (left right : Option GNode)
         (lw rw pw : Option Wire)
         (op : Option Nat)

/-- `GarbledGate::assign_ciphertexts`, as a pure function of the fields it
reads (the op, both child wires, the parent wire); returns
`(c_00, c_01, c_10, c_11)`.  Bit `k` of `op` (via the masks 1, 2, 4, 8)
selects the parent's on or off key; the inner encryption layer uses the
right-child key, the outer layer the left-child key, both with counter 0,
and 32 zero bytes are appended before encrypting. -/
def assignCiphertexts (ks : Keystream) (op : Nat) (lw rw pw : Wire) :
    List Nat × List Nat × List Nat × List Nat :=
  let vals := ((op &&& 1) != 0, (op &&& 2) != 0, (op &&& 4) != 0, (op &&& 8) != 0)
  let out00 := if vals.1 then pw.on_key else pw.off_key
  let out01 := if vals.2.1 then pw.on_key else pw.off_key
  let out10 := if vals.2.2.1 then pw.on_key else pw.off_key
  let out11 := if vals.2.2.2 then pw.on_key else pw.off_key
  let zeros := List.replicate KEY_SIZE 0
  (AesCtr.encrypt ks lw.off_key (AesCtr.encrypt ks rw.off_key (out00 ++ zeros) 0) 0,
   AesCtr.encrypt ks lw.off_key (AesCtr.encrypt ks rw.on_key (out01 ++ zeros) 0) 0,
   AesCtr.encrypt ks lw.on_key (AesCtr.encrypt ks rw.off_key (out10 ++ zeros) 0) 0,
   AesCtr.encrypt ks lw.on_key (AesCtr.encrypt ks rw.on_key (out11 ++ zeros) 0) 0)

/-- The side wire chosen for a gate child: an input child reuses the wire
from the `input_wires` map (`input_wires.get(&idx).unwrap()`), any other
child gets the next fresh wire from the supply. -/
def childWire (supply iw : Nat → Wire) (child : Node) (ctr : Nat) : Wire × Nat :=
  match child with
  | .input idx => (iw idx, ctr)
  | .gate .. => (supply ctr, ctr + 1)

/-- `GarbledNode::garble`.  `supply k` is the k-th internal wire that
`GarbledWire::new` draws during the recursion (left wire, then right wire,
then the draws inside the left subtree, then the right subtree, matching
statement order in the source); `iw` is the `input_wires` map; `ctr` counts
the draws made so far.  The Rust function wraps its result in
`Some(Rc::new(RefCell::new(…)))` and both arms return `Some`, so the
`if let Some` back-patching of `left`/`right`/`left_wire`/`right_wire`
always takes the hit branch; the embedding therefore returns the node
directly and sets those four fields unconditionally.  The pair returned is
the garbled node and the updated draw counter. -/
def garble (ks : Keystream) (supply : Nat → Wire) (iw : Nat → Wire) :
    Node → Option Wire → Nat → GNode × Nat
  | .input idx, _, ctr => (.input idx, ctr)
  | .gate op left right, parentWire, ctr =>
    let lpick := childWire supply iw left ctr
    let rpick := childWire supply iw right lpick.2
    let lres := garble ks supply iw left (some lpick.1) rpick.2
    let rres := garble ks supply iw right (some rpick.1) lres.2
    let cts := assignCiphertexts ks op lpick.1 rpick.1 (parentWire.getD dfltWire)
    (.gate (some cts.1) (some cts.2.1) (some cts.2.2.1) (some cts.2.2.2)
        (some lres.1) (some rres.1) (some lpick.1) (some rpick.1) parentWire (some op),
      rres.2)

/-- `GarbledCircuit` (garbler view). -/
structure GarbledCircuit where
  out : GNode
  input_wires : Nat → Wire
  n : Nat

/-- `impl From<Circuit> for GarbledCircuit`: draw one wire per input index
(`iwSupply`), garble the output node against the distinguished out wire. -/
def garbleCircuit (ks : Keystream) (supply iwSupply : Nat → Wire) (c : Circuit) :
    GarbledCircuit :=
  { out := (garble ks supply iwSupply c.out (some Wire.out_wire) 0).1
    input_wires := iwSupply
    n := c.n }

/-! ## Receiver view and garbled evaluation (`src/backend/receiver_backend.rs`) -/

/-- `GarbledNodeRecv` / `GarbledGateRecv`: ciphertexts and children only. -/
inductive RNode where
  | input (idx : Nat)
  | gate (c00 c01 c10 c11 : Option (List Nat)) (left right : Option RNode)

/-- `impl From<GarbledNode> for GarbledNodeRecv`: keep index and ciphertexts,
drop wires and op, recurse into the children.  The Rust accessors and child
unwraps panic on a missing field; they are totalized with `[]` and a dummy
input node, branches the well-formedness theorem shows unreachable on
garbling output. -/
def GNode.toRecv : GNode → RNode
  | .input idx => .input idx
  | .gate c00 c01 c10 c11 left right _ _ _ _ =>
    .gate (some (c00.getD [])) (some (c01.getD [])) (some (c10.getD []))
      (some (c11.getD []))
      (some (match left with | some g => g.toRecv | none => .input 0))
      (some (match right with | some g => g.toRecv | none => .input 0))

/-- One candidate decryption as the evaluator computes it: the inner
`decrypt` uses the cipher keyed by the left-child label, the outer one the
cipher keyed by the right-child label, both with counter 0
(`right_cipher.decrypt(&left_cipher.decrypt(ct, 0), 0)`). -/
def implCandidate (ks : Keystream) (leftKey rightKey ct : List Nat) : List Nat :=
  AesCtr.decrypt ks rightKey (AesCtr.decrypt ks leftKey ct 0) 0

/-- The suffix test `d.ends_with(&suffix)` against 32 zero bytes. -/
def hasZeroTag (d : List Nat) : Bool :=
  (List.replicate KEY_SIZE 0).isSuffixOf d

/-- `GarbledNodeRecv::eval`: recursively obtain the two child labels, decrypt
all four ciphertexts, return the first 32 bytes of the first decryption
carrying the zero tag, defaulting to the `c_11` decryption.  Rust's
out-of-range input indexing, missing-field unwraps and the `[0..KEY_SIZE]`
slice panic are totalized (empty defaults, `take`). -/
def RNode.eval (ks : Keystream) (inputs : List (List Nat)) : RNode → List Nat
  | .input idx => inputs.getD idx []
  | .gate c00 c01 c10 c11 left right =>
    let leftOut := match left with | some g => g.eval ks inputs | none => []
    let rightOut := match right with | some g => g.eval ks inputs | none => []
    let d00 := implCandidate ks leftOut rightOut (c00.getD [])
    let d01 := implCandidate ks leftOut rightOut (c01.getD [])
    let d10 := implCandidate ks leftOut rightOut (c10.getD [])
    let d11 := implCandidate ks leftOut rightOut (c11.getD [])
    if hasZeroTag d00 then d00.take KEY_SIZE
    else if hasZeroTag d01 then d01.take KEY_SIZE
    else if hasZeroTag d10 then d10.take KEY_SIZE
    else d11.take KEY_SIZE

/-! ## Spec-side formulations used for the refinement claims -/

/-- The candidate decryption as spec §4.5 words it:
`D_ab = decrypt(L, decrypt(R, c_ab, 0), 0)` — inner layer keyed by the
right-child label, outer layer keyed by the left-child label. -/
def specCandidate (ks : Keystream) (leftKey rightKey ct : List Nat) : List Nat :=
  AesCtr.decrypt ks leftKey (AesCtr.decrypt ks rightKey ct 0) 0

/-- The selection rule as spec §4.5 words it: the first candidate, in the
order 00, 01, 10, 11, whose last 32 bytes are all zero; when none of the
first three matches, the `c_11` decryption is used with no tag check. -/
def chooseCandidate (d00 d01 d10 d11 : List Nat) : List Nat :=
  if hasZeroTag d00 then d00
  else if hasZeroTag d01 then d01
  else if hasZeroTag d10 then d10
  else d11

/-- The per-gate encryption as spec §4.4 words it: for `(a,b) ∈ {0,1}²`,
`out_ab = P_on` iff bit `2a+b` of the op is set (`(op >> (2a+b)) & 1`), and
`c_ab = E(L_a, E(R_b, out_ab ‖ 0³²))`, counter 0 in both layers, inner
layer keyed by the right wire's `b`-label, outer by the left wire's
`a`-label. -/
def specCipher (ks : Keystream) (op : Nat) (lw rw pw : Wire) (a b : Bool) : List Nat :=
  let outKey := if (op >>> (2 * a.toNat + b.toNat)) &&& 1 = 1 then pw.on_key else pw.off_key
  AesCtr.encrypt ks (if a then lw.on_key else lw.off_key)
    (AesCtr.encrypt ks (if b then rw.on_key else rw.off_key)
      (outKey ++ List.replicate KEY_SIZE 0) 0) 0

/-- Read the `(a,b)` component off the `(c_00, c_01, c_10, c_11)` tuple, in
the stored order `2a+b`. -/
def selectCt (cts : List Nat × List Nat × List Nat × List Nat) (a b : Bool) : List Nat :=
  match a, b with
  | false, false => cts.1
  | false, true => cts.2.1
  | true, false => cts.2.2.1
  | true, true => cts.2.2.2

/-! ## Big-endian byte conversion at the OT boundary
(`BigUint::from_bytes_be` / `BigUint::to_bytes_be` as used by
`src/bin/receiver.rs` and `src/bin/garbler.rs`) -/

/-- `BigUint::from_bytes_be`: big-endian bytes to integer. -/
def natFromBytesBE (bytes : List Nat) : Nat :=
  bytes.foldl (fun acc b => acc * 256 + b) 0

/-- Division recursion for `natToBytesBE`, on fuel (64 bytes of fuel cover
every value this development touches). -/
def natToBytesBEAux : Nat → Nat → List Nat
  | 0, _ => []
  | _ + 1, 0 => []
  | fuel + 1, n => natToBytesBEAux fuel (n / 256) ++ [n % 256]

/-- `BigUint::to_bytes_be`: minimal big-endian encoding — zero encodes as a
single zero byte, any other value has no leading zero byte. -/
def natToBytesBE (n : Nat) : List Nat :=
  if n = 0 then [0] else natToBytesBEAux 64 n

/-- The receiver's `x.as_slice().try_into()` into `[u8; 32]`: succeeds
exactly on 32 bytes (`connect` unwraps the result, so a shorter buffer is a
panic). -/
def tryInto32 (bytes : List Nat) : Option (List Nat) :=
  if bytes.length = KEY_SIZE then some bytes else none

/-! ## RSA primitives (modelled from the spec) and oblivious transfer
(`src/ot.rs`) -/

/-- Modelled from the spec: `crypto/rsa.rs` is missing from the sources.
Spec §4.2: the public key is `(e, n)`, big-endian unsigned integers. -/
structure PublicKey where
  e : Nat
  n : Nat

/-- Modelled from the spec: the private key holds `d` (and the modulus). -/
structure PrivateKey where
  d : Nat
  n : Nat

/-- Modelled from the spec: an RSA keypair `(e, n, d)`. -/
structure Keypair where
  public : PublicKey
  privateKey : PrivateKey

/-- Modelled from the spec: `encrypt(m) = m^e mod n`. -/
def PublicKey.encrypt (pk : PublicKey) (m : Nat) : Nat :=
  m ^ pk.e % pk.n

/-- Modelled from the spec: `decrypt(c) = c^d mod n`. -/
def PrivateKey.decrypt (sk : PrivateKey) (c : Nat) : Nat :=
  c ^ sk.d % sk.n

/-- `ObTransferSender`: the two messages, the RSA keypair, and the two
random nonces `x_0, x_1` drawn below the modulus by `new`. -/
structure ObTransferSender where
  msgs : Nat × Nat
  keypair : Keypair
  xs : Nat × Nat

/-- `ObTransferSender::gen_combined`: `k_i = decrypt((v + (n - x_i)) mod n)`
(the BigUint subtraction written as an addition of `n - x_i`), reply
`((m_0 + k_0) mod n, (m_1 + k_1) mod n)`. -/
def ObTransferSender.gen_combined (s : ObTransferSender) (v : Nat) : Nat × Nat :=
  let n := s.keypair.public.n
  let k0 := s.keypair.privateKey.decrypt ((v + (n - s.xs.1)) % n)
  let k1 := s.keypair.privateKey.decrypt ((v + (n - s.xs.2)) % n)
  ((s.msgs.1 + k0) % n, (s.msgs.2 + k1) % n)

/-- `ObTransferReceiver`: the sender's nonces, the blinding scalar `k`
drawn below the modulus by `new`, and the sender's public key. -/
structure ObTransferReceiver where
  xs : Nat × Nat
  k : Nat
  sender_pubkey : PublicKey

/-- `ObTransferReceiver::blind_idx`: `v = (x_b + k^e mod n) mod n`; any
nonzero `b` selects `x_1`. -/
def ObTransferReceiver.blind_idx (r : ObTransferReceiver) (b : Nat) : Nat :=
  ((if b = 0 then r.xs.1 else r.xs.2) +
      r.k ^ r.sender_pubkey.e % r.sender_pubkey.n) % r.sender_pubkey.n

/-- `ObTransferReceiver::derive_msg`: `m_b = (m'_b + (n - k)) mod n`. -/
def ObTransferReceiver.derive_msg (r : ObTransferReceiver) (m_primes : Nat × Nat)
    (b : Nat) : Nat :=
  ((if b = 0 then m_primes.1 else m_primes.2) + (r.sender_pubkey.n - r.k)) %
    r.sender_pubkey.n

/-! ## Structural predicates on garbler trees -/

/-- A ciphertext field is present and is exactly `2 * KEY_SIZE = 64` bytes
(32 bytes of key material plus the 32-byte tag). -/
def ctOK (c : Option (List Nat)) : Bool :=
  match c with
  | some ct => ct.length == 2 * KEY_SIZE
  | none => false

/-- Every gate of the tree has its four ciphertexts present with the 64-byte
length the evaluator slices, and both child pointers present. -/
def GNode.gatesWF : GNode → Bool
  | .input _ => true
  | .gate c00 c01 c10 c11 left right _ _ _ _ =>
    ctOK c00 && ctOK c01 && ctOK c10 && ctOK c11 &&
    (match left with | some g => g.gatesWF | none => false) &&
    (match right with | some g => g.gatesWF | none => false)

/-- The parent (output) wires of the gates of a garbler tree, root gate
first, then the gates of the left subtree, then the right subtree. -/
def GNode.gatePWs : GNode → List (Option Wire)
  | .input _ => []
  | .gate _ _ _ _ left right _ _ pw _ =>
    pw :: ((match left with | some g => g.gatePWs | none => []) ++
           (match right with | some g => g.gatePWs | none => []))

/-! ## The label vector and the negligible-event guard for evaluation -/

/-- The label vector the receiver ends up holding for plaintext input `v`
(garbler-shipped labels and OT-delivered labels together): for each input
index `i < m`, the on label of input wire `i` when `v[i]` is true, its off
label otherwise. -/
def labelVec (iw : Nat → Wire) (v : List Bool) (m : Nat) : List (List Nat) :=
  (List.range m).map fun i => if v.getD i false then (iw i).on_key else (iw i).off_key

/-- The wire a garbled node's output label travels on: an input node uses
its input wire, a gate its parent wire. -/
def nodeWire (iw : Nat → Wire) (node : Node) (pw : Option Wire) : Wire :=
  match node with
  | .input _idx => iw _idx
  | .gate .. => pw.getD dfltWire

/-- The negligible-event guard for one garbled evaluation, following the
garbling recursion: at every gate, under the pair of child labels selected
by the plaintext values of `v`, none of the three wrong candidate
decryptions of the gate's ciphertexts carries the all-zero tag (each real
run satisfies this with probability `1 − 2⁻²⁵⁶` per gate, which is spec
property 3: exactly one ciphertext decrypts to a tagged value). -/
def noFalseTag (ks : Keystream) (supply iw : Nat → Wire) (v : List Bool) :
    Node → Option Wire → Nat → Bool
  | .input _, _, _ => true
  | .gate op l r, parentWire, ctr =>
    let lpick := childWire supply iw l ctr
    let rpick := childWire supply iw r lpick.2
    let lres := garble ks supply iw l (some lpick.1) rpick.2
    let cts := assignCiphertexts ks op lpick.1 rpick.1 (parentWire.getD dfltWire)
    let lv := l.eval v
    let rv := r.eval v
    let L := if lv then lpick.1.on_key else lpick.1.off_key
    let R := if rv then rpick.1.on_key else rpick.1.off_key
    let bad : Bool :=
      (!(lv == false && rv == false) && hasZeroTag (implCandidate ks L R cts.1)) ||
      (!(lv == false && rv == true) && hasZeroTag (implCandidate ks L R cts.2.1)) ||
      (!(lv == true && rv == false) && hasZeroTag (implCandidate ks L R cts.2.2.1)) ||
      (!(lv == true && rv == true) && hasZeroTag (implCandidate ks L R cts.2.2.2))
    !bad && noFalseTag ks supply iw v l (some lpick.1) rpick.2 &&
      noFalseTag ks supply iw v r (some rpick.1) lres.2

/-! ## The comparison circuit (`src/backend/garbler_backend.rs`) -/

def AND_GATE : Nat := 0b1000

def OR_GATE : Nat := 0b1110

def XNOR_GATE : Nat := 0b1001

/-- `MY_GATE`: `x ∧ ¬y`, truth table 0100 top to bottom. -/
def MY_GATE : Nat := 0b0100

/-- The equality indicator `x_j = XNOR(a_j, b_j)` that `construct_circuit`
builds for bit `j` (`a_j` at input index `j`, `b_j` at `n + j`). -/
def xNode (n j : Nat) : Node :=
  .gate XNOR_GATE (.input j) (.input (n + j))

/-- The inner loop of `construct_circuit`: `cmp_hat_i` starts as
`MY_GATE(a_i, b_i)` and left-folds `AND` with `x_{i+1} … x_{n−1}`
(`xs.iter().take(n).skip(i+1)`). -/
def cmpHatNode (n i : Nat) : Node :=
  (List.range' (i + 1) (n - (i + 1))).foldl
    (fun acc j => .gate AND_GATE acc (xNode n j))
    (.gate MY_GATE (.input i) (.input (n + i)))

/-- The outer loop of `construct_circuit`: `i` runs from `n − 1` down to 0;
the first iteration seeds the accumulator with `cmp_hat_{n−1}`, each later
one ORs the next `cmp_hat_i` in on the right. -/
def outFold (n : Nat) : Option Node :=
  ((List.range n).reverse).foldl
    (fun acc i =>
      match acc with
      | some o => some (.gate OR_GATE o (cmpHatNode n i))
      | none => some (cmpHatNode n i))
    none

/-- The plaintext circuit `construct_circuit n` builds and garbles
(`out.unwrap()` panics for `n = 0`; totalized with a dummy input node). -/
def construct_circuit_plain (n : Nat) : Circuit :=
  Circuit.new ((outFold n).getD (.input 0))

/-- The input vector for the comparison circuit: the garbler's bits of `a`
little-endian at indices `0..n−1`, the receiver's bits of `b` at
`n..2n−1`. -/
def inputVec (n a b : Nat) : List Bool :=
  (List.range n).map a.testBit ++ (List.range n).map b.testBit

/-! ## Theorems -/

theorem ctrXor_length (ks : Keystream) (key : List Nat) :
    ∀ (i : Nat) (msg : List Nat), (ctrXor ks key i msg).length = msg.length := by
  intro i msg
  induction msg generalizing i with
  | nil => rfl
  | cons b rest ih => simp [ctrXor, ih]

theorem ctrXor_ctrXor (ks : Keystream) (key : List Nat) :
    ∀ (i : Nat) (msg : List Nat), ctrXor ks key i (ctrXor ks key i msg) = msg := by
  intro i msg
  induction msg generalizing i with
  | nil => rfl
  | cons b rest ih =>
    simp only [ctrXor, ih]
    rw [Nat.xor_assoc, Nat.xor_self, Nat.xor_zero]

theorem decrypt_encrypt (ks : Keystream) (key msg : List Nat) (counter : Nat) :
    AesCtr.decrypt ks key (AesCtr.encrypt ks key msg counter) counter = msg :=
  ctrXor_ctrXor ks key counter msg

/-- Different keys' keystream XORs commute: applying the cipher with key `k₂`
after key `k₁` equals applying them the other way around. -/
theorem ctrXor_comm (ks : Keystream) (k₁ k₂ : List Nat) :
    ∀ (i : Nat) (msg : List Nat),
      ctrXor ks k₂ i (ctrXor ks k₁ i msg) = ctrXor ks k₁ i (ctrXor ks k₂ i msg) := by
  intro i msg
  induction msg generalizing i with
  | nil => rfl
  | cons b rest ih =>
    simp only [ctrXor, ih]
    rw [Nat.xor_assoc, Nat.xor_comm (ks k₁ i), ← Nat.xor_assoc]

theorem eval_gate (op : Nat) (l r : Node) (input : List Bool) :
    (Node.gate op l r).eval input = gateSem op (l.eval input) (r.eval input) := rfl

theorem and_mask_testBit (op k : Nat) : ((op &&& 2 ^ k) != 0) = op.testBit k := by
  rcases h : op.testBit k with _ | _
  · have hz : op &&& 2 ^ k = 0 := by
      refine Nat.eq_of_testBit_eq fun i => ?_
      rcases Nat.decEq k i with hki | hki
      · simp [Nat.testBit_and, Nat.testBit_two_pow, fun hh : k = i => hki hh]
      · subst hki
        simp [Nat.testBit_and, h]
    simp [hz]
  · have hb : (op &&& 2 ^ k).testBit k = true := by
      simp [Nat.testBit_and, h, Nat.testBit_two_pow_self]
    have hnz : op &&& 2 ^ k ≠ 0 := by
      intro h0
      rw [h0, Nat.zero_testBit] at hb
      exact Bool.false_ne_true hb
    simp [hnz]

theorem shiftRight_and_one (op k : Nat) : ((op >>> k) &&& 1 = 1) ↔ op.testBit k = true := by
  rw [Nat.and_one_is_mod, Nat.shiftRight_eq_div_pow, Nat.testBit_to_div_mod]
  simp

/-- C7: for every gate ciphertext and every pair of held child labels, the
candidate decryption the evaluator computes — inner decryption keyed by the
left-child label, outer keyed by the right-child label — equals the spec's
`D_ab = decrypt(L, decrypt(R, c_ab, 0), 0)`, which decrypts with the
right-child label first: under the counter-mode cipher the two keystream
XORs commute, so both orders produce the same value on every input. -/
theorem implCandidate_eq_specCandidate (ks : Keystream) (leftKey rightKey ct : List Nat) :
    implCandidate ks leftKey rightKey ct = specCandidate ks leftKey rightKey ct :=
  ctrXor_comm ks leftKey rightKey 0 ct

theorem eval_gate_eq (ks : Keystream) (inputs : List (List Nat))
    (c00 c01 c10 c11 : List Nat) (l r : RNode) :
    RNode.eval ks inputs
        (.gate (some c00) (some c01) (some c10) (some c11) (some l) (some r)) =
      (chooseCandidate
        (implCandidate ks (l.eval ks inputs) (r.eval ks inputs) c00)
        (implCandidate ks (l.eval ks inputs) (r.eval ks inputs) c01)
        (implCandidate ks (l.eval ks inputs) (r.eval ks inputs) c10)
        (implCandidate ks (l.eval ks inputs) (r.eval ks inputs) c11)).take KEY_SIZE := by
  simp only [RNode.eval, chooseCandidate, Option.getD_some]
  split_ifs <;> rfl

/-- C6: at a gate whose four ciphertexts and both children are present, the
evaluator returns the first 32 bytes of the first candidate decryption (in
the order 00, 01, 10, 11) whose last 32 bytes are all zero, and when none of
the 00, 01, 10 candidates carries the zero tag it returns the first 32 bytes
of the `c_11` decryption without checking its tag; `chooseCandidate` is that
selection rule, total, with no error outcome. -/
theorem eval_gate_first_tagged (ks : Keystream) (inputs : List (List Nat))
    (c00 c01 c10 c11 : List Nat) (l r : RNode) :
    RNode.eval ks inputs
        (.gate (some c00) (some c01) (some c10) (some c11) (some l) (some r)) =
      (chooseCandidate
        (implCandidate ks (l.eval ks inputs) (r.eval ks inputs) c00)
        (implCandidate ks (l.eval ks inputs) (r.eval ks inputs) c01)
        (implCandidate ks (l.eval ks inputs) (r.eval ks inputs) c10)
        (implCandidate ks (l.eval ks inputs) (r.eval ks inputs) c11)).take KEY_SIZE :=
  eval_gate_eq ks inputs c00 c01 c10 c11 l r

/-- C4: each stored gate ciphertext matches the spec formula: `c_ab` (stored
at tuple position `2a+b`) equals `E(L_a, E(R_b, out_ab ‖ 0³²))` with counter
0 in both layers, inner layer keyed by the right-child label, outer by the
left-child label, where `out_ab` is the parent's on key exactly when bit
`2a+b` of the op is set. -/
theorem assignCiphertexts_eq_specCipher (ks : Keystream) (op : Nat) (lw rw pw : Wire)
    (a b : Bool) :
    selectCt (assignCiphertexts ks op lw rw pw) a b = specCipher ks op lw rw pw a b := by
  have h1 : op &&& 1 = op &&& 2 ^ 0 := by norm_num
  have h2 : op &&& 2 = op &&& 2 ^ 1 := by norm_num
  have h4 : op &&& 4 = op &&& 2 ^ 2 := by norm_num
  have h8 : op &&& 8 = op &&& 2 ^ 3 := by norm_num
  cases a <;> cases b <;>
    simp only [selectCt, assignCiphertexts, specCipher, Bool.toNat_false, Bool.toNat_true,
      h1, h2, h4, h8, and_mask_testBit, shiftRight_and_one, if_true, if_false] <;>
    norm_num [shiftRight_and_one]

/-! ## Wire label distinctness (`GarbledWire::new`) -/

/-- C8 counterexample: `GarbledWire::new` draws the on key and the off key as
two independent 32-byte reads of the entropy stream and never compares them,
so there is a choice of randomness (a constant stream) for which the two
labels of the freshly drawn wire coincide. -/
theorem wire_new_labels_can_coincide :
    (Wire.new fun _ => 0).off_key = (Wire.new fun _ => 0).on_key := rfl

/-- C8 amended: a wire drawn by `GarbledWire::new` has distinct off and on
labels exactly when the two 32-byte blocks it reads off the entropy stream
differ somewhere — every choice of randomness except the 2⁻²⁵⁶ fraction in
which the two independent draws coincide. -/
theorem wire_new_labels_distinct_iff (r : Nat → Nat) :
    (Wire.new r).off_key ≠ (Wire.new r).on_key ↔
      ∃ i ∈ List.range KEY_SIZE, r (KEY_SIZE + i) ≠ r i := by
  unfold Wire.new
  simp only [ne_eq, List.map_inj_left]
  push_neg
  rfl

theorem wire_new_labels_distinct_iff_witness :
    (Wire.new fun i => i).off_key ≠ (Wire.new fun i => i).on_key :=
  (wire_new_labels_distinct_iff fun i => i).mpr ⟨0, by decide, by decide⟩

/-- C9: a 32-byte wire label whose first byte is zero — here
`0 ‖ 1³¹` — does not survive the receiver's big-endian round trip: the
integer `derive_msg` computes re-encodes to only 31 bytes, so the fixed
32-byte conversion in `connect` fails even though the OT delivered the
mathematically correct integer. -/
theorem receiver_label_roundtrip_loses_leading_zero :
    (0 :: List.replicate 31 1).length = KEY_SIZE ∧
      (0 :: List.replicate 31 1).headD 1 = 0 ∧
      (natToBytesBE (natFromBytesBE (0 :: List.replicate 31 1))).length = 31 ∧
      tryInto32 (natToBytesBE (natFromBytesBE (0 :: List.replicate 31 1))) = none := by
  refine ⟨by decide, rfl, ?_, ?_⟩ <;> decide

theorem assignCiphertexts_lengths (ks : Keystream) (op : Nat) (lw rw pw : Wire)
    (hpw : pw.wf) :
    (assignCiphertexts ks op lw rw pw).1.length = 2 * KEY_SIZE ∧
      (assignCiphertexts ks op lw rw pw).2.1.length = 2 * KEY_SIZE ∧
      (assignCiphertexts ks op lw rw pw).2.2.1.length = 2 * KEY_SIZE ∧
      (assignCiphertexts ks op lw rw pw).2.2.2.length = 2 * KEY_SIZE := by
  obtain ⟨hon, hoff⟩ := hpw
  simp only [assignCiphertexts, AesCtr.encrypt, ctrXor_length, List.length_append,
    List.length_replicate]
  refine ⟨?_, ?_, ?_, ?_⟩ <;> split <;> simp [hon, hoff] <;> omega

theorem garble_gatesWF (ks : Keystream) (supply iw : Nat → Wire)
    (hs : ∀ k, (supply k).wf) (hi : ∀ i, (iw i).wf) :
    ∀ (node : Node) (pw : Wire) (ctr : Nat), pw.wf →
      ((garble ks supply iw node (some pw) ctr).1).gatesWF = true := by
  have hcw : ∀ (c : Node) (k : Nat), ((childWire supply iw c k).1).wf := by
    intro c k
    cases c <;> simp [childWire, hs, hi]
  intro node
  induction node with
  | input idx => intro pw ctr _; rfl
  | gate op l r ihl ihr =>
    intro pw ctr hpw
    obtain ⟨h1, h2, h3, h4⟩ := assignCiphertexts_lengths ks op
      (childWire supply iw l ctr).1
      (childWire supply iw r (childWire supply iw l ctr).2).1 pw hpw
    simp only [garble, GNode.gatesWF, ctOK, Option.getD_some]
    simp [h1, h2, h3, h4, ihl _ _ (hcw l ctr), ihr _ _ (hcw r _)]

/-- C10: garbling a well-formed circuit (every input index below the input
count; all supply and input wires 32-byte as the Rust array type makes
them) produces a tree in which every gate has its four ciphertexts present,
each exactly 64 bytes long, and both child pointers present — so the
ciphertext accessor unwraps and the evaluator's extraction of the first 32
bytes of a decryption never hit a missing value or an out-of-range
branch. -/
theorem garbleCircuit_gatesWF (ks : Keystream) (supply iwS : Nat → Wire) (c : Circuit)
    (hs : ∀ k, (supply k).wf) (hi : ∀ i, (iwS i).wf)
    (_hidx : ∀ idx ∈ c.out.inputs, idx < c.n) :
    (garbleCircuit ks supply iwS c).out.gatesWF = true :=
  garble_gatesWF ks supply iwS hs hi c.out Wire.out_wire 0
    (by constructor <;> simp [Wire.out_wire])

theorem garbleCircuit_gatesWF_witness :
    (garbleCircuit (fun _ _ => 0) (fun _ => ⟨List.replicate 32 3, List.replicate 32 4⟩)
        (fun _ => ⟨List.replicate 32 5, List.replicate 32 6⟩)
        (Circuit.new (.gate 8 (.input 0) (.input 1)))).out.gatesWF = true :=
  garbleCircuit_gatesWF _ _ _ _ (fun _ => by constructor <;> rfl)
    (fun _ => by constructor <;> rfl) (by decide)

theorem garble_gatePWs (ks : Keystream) (supply iw : Nat → Wire) :
    ∀ (node : Node) (pw : Option Wire) (ctr : Nat),
      ∀ w ∈ ((garble ks supply iw node pw ctr).1).gatePWs,
        w = pw ∨ ∃ k, w = some (supply k) := by
  intro node
  induction node with
  | input idx =>
    intro pw ctr w hw
    simp [garble, GNode.gatePWs] at hw
  | gate op l r ihl ihr =>
    intro pw ctr w hw
    simp only [garble, GNode.gatePWs, List.mem_cons, List.mem_append] at hw
    rcases hw with rfl | hw | hw
    · exact Or.inl rfl
    · rcases ihl _ _ _ hw with rfl | hsup
      · cases l with
        | input li => simp [garble, GNode.gatePWs] at hw
        | gate lop ll lr => exact Or.inr ⟨ctr, by simp [childWire]⟩
      · exact Or.inr hsup
    · rcases ihr _ _ _ hw with rfl | hsup
      · cases r with
        | input ri => simp [garble, GNode.gatePWs] at hw
        | gate rop rl rr => exact Or.inr ⟨(childWire supply iw l ctr).2, by simp [childWire]⟩
      · exact Or.inr hsup

/-- C5: in a garbled circuit built from a gate-rooted plaintext circuit, the
root gate's output wire is the distinguished all-zeros/all-ones wire, and
every internal (non-root) gate's output wire is one of the freshly drawn
supply wires — in particular different from the distinguished wire whenever
the randomness avoids it. -/
theorem garbleCircuit_root_out_wire (ks : Keystream) (supply iwS : Nat → Wire)
    (c : Circuit) (op : Nat) (l r : Node) (hroot : c.out = .gate op l r)
    (hsup : ∀ k, supply k ≠ Wire.out_wire) :
    ((garbleCircuit ks supply iwS c).out.gatePWs).head? = some (some Wire.out_wire) ∧
      ∀ w ∈ ((garbleCircuit ks supply iwS c).out.gatePWs).tail,
        (∃ k, w = some (supply k)) ∧ w ≠ some Wire.out_wire := by
  constructor
  · simp only [garbleCircuit, hroot, garble, GNode.gatePWs, List.head?_cons]
  · intro w hw
    simp only [garbleCircuit, hroot, garble, GNode.gatePWs, List.tail_cons,
      List.mem_append] at hw
    have hw' : (∃ k, w = some (supply k)) := by
      rcases hw with hw | hw
      · rcases garble_gatePWs ks supply iwS l _ _ _ hw with rfl | hsup'
        · cases l with
          | input li => simp [garble, GNode.gatePWs] at hw
          | gate lop ll lr => exact ⟨0, by simp [childWire]⟩
        · exact hsup'
      · rcases garble_gatePWs ks supply iwS r _ _ _ hw with rfl | hsup'
        · cases r with
          | input ri => simp [garble, GNode.gatePWs] at hw
          | gate rop rl rr => exact ⟨(childWire supply iwS l 0).2, by simp [childWire]⟩
        · exact hsup'
    refine ⟨hw', ?_⟩
    obtain ⟨k, rfl⟩ := hw'
    intro hcontra
    exact hsup k (Option.some_injective _ hcontra)

theorem garbleCircuit_root_out_wire_witness :
    ((garbleCircuit (fun _ _ => 0) (fun _ => ⟨List.replicate 32 3, List.replicate 32 4⟩)
        (fun _ => ⟨List.replicate 32 5, List.replicate 32 6⟩)
        (Circuit.new
          (.gate 8 (.gate 8 (.input 0) (.input 1)) (.input 2)))).out.gatePWs).head? =
      some (some Wire.out_wire) :=
  by
  refine (garbleCircuit_root_out_wire (fun _ _ => 0)
      (fun _ => ⟨List.replicate 32 3, List.replicate 32 4⟩)
      (fun _ => ⟨List.replicate 32 5, List.replicate 32 6⟩)
      (Circuit.new (.gate 8 (.gate 8 (.input 0) (.input 1)) (.input 2)))
      8 (.gate 8 (.input 0) (.input 1)) (.input 2) rfl ?_).1
  intro k
  show (⟨List.replicate 32 3, List.replicate 32 4⟩ : Wire) ≠ Wire.out_wire
  decide

/-- The modular arithmetic at the heart of one OT branch: blinding, the
sender's unblinding-and-masking, and the receiver's final subtraction cancel
exactly. -/
theorem ot_branch (n e d m x k : Nat) (hx : x < n) (hm : m < n) (hk : k < n)
    (hrt : (k ^ e % n) ^ d % n = k) :
    ((m + (((x + k ^ e % n) % n + (n - x)) % n) ^ d % n) % n + (n - k)) % n = m := by
  have h1 : ((x + k ^ e % n) % n + (n - x)) % n = k ^ e % n := by
    rw [Nat.mod_add_mod]
    have h2 : x + k ^ e % n + (n - x) = k ^ e % n + n := by omega
    rw [h2, Nat.add_mod_right]
    exact Nat.mod_mod_of_dvd _ dvd_rfl
  rw [h1, hrt, Nat.mod_add_mod]
  have h3 : m + k + (n - k) = m + n := by omega
  rw [h3, Nat.add_mod_right]
  exact Nat.mod_eq_of_lt hm

/-- C3: for every keypair whose decrypt inverts encrypt below the modulus,
messages `m_0, m_1 < n`, nonces `x_0, x_1 < n`, receiver scalar `k < n` and
choice `b`, the receiver's `derive_msg` applied to the sender's
`gen_combined` of the receiver's `blind_idx b` returns exactly the chosen
message. -/
theorem ot_correct (kp : Keypair) (m0 m1 x0 x1 k b : Nat)
    (hnn : kp.privateKey.n = kp.public.n)
    (hrt : ∀ x, x < kp.public.n → kp.privateKey.decrypt (kp.public.encrypt x) = x)
    (hm0 : m0 < kp.public.n) (hm1 : m1 < kp.public.n)
    (hx0 : x0 < kp.public.n) (hx1 : x1 < kp.public.n) (hk : k < kp.public.n) :
    ObTransferReceiver.derive_msg ⟨(x0, x1), k, kp.public⟩
        (ObTransferSender.gen_combined ⟨(m0, m1), kp, (x0, x1)⟩
          (ObTransferReceiver.blind_idx ⟨(x0, x1), k, kp.public⟩ b)) b =
      if b = 0 then m0 else m1 := by
  have hrtk : (k ^ kp.public.e % kp.public.n) ^ kp.privateKey.d % kp.public.n = k := by
    have h := hrt k hk
    simpa [PublicKey.encrypt, PrivateKey.decrypt, hnn] using h
  by_cases hb : b = 0
  · simp only [ObTransferReceiver.derive_msg, ObTransferSender.gen_combined,
      ObTransferReceiver.blind_idx, PrivateKey.decrypt, hnn, hb, if_true]
    exact ot_branch kp.public.n kp.public.e kp.privateKey.d m0 x0 k hx0 hm0 hk hrtk
  · simp only [ObTransferReceiver.derive_msg, ObTransferSender.gen_combined,
      ObTransferReceiver.blind_idx, PrivateKey.decrypt, hnn, hb, if_false, if_neg hb]
    exact ot_branch kp.public.n kp.public.e kp.privateKey.d m1 x1 k hx1 hm1 hk hrtk

theorem labelVec_getD (iw : Nat → Wire) (v : List Bool) (m idx : Nat) (h : idx < m) :
    (labelVec iw v m).getD idx [] =
      if v.getD idx false then (iw idx).on_key else (iw idx).off_key := by
  simp [labelVec, List.getD_eq_getElem?_getD, List.getElem?_range h]

theorem nodeWire_childWire (supply iw : Nat → Wire) (child : Node) (k : Nat) :
    nodeWire iw child (some (childWire supply iw child k).1) =
      (childWire supply iw child k).1 := by
  cases child <;> rfl

theorem childWire_wf (supply iw : Nat → Wire) (hs : ∀ k, (supply k).wf)
    (hi : ∀ i, (iw i).wf) (child : Node) (k : Nat) :
    ((childWire supply iw child k).1).wf := by
  cases child <;> simp [childWire, hs, hi]

theorem hasZeroTag_append (out : List Nat) :
    hasZeroTag (out ++ List.replicate KEY_SIZE 0) = true := by
  simp [hasZeroTag, List.isSuffixOf_iff_suffix]

theorem implCandidate_encrypt (ks : Keystream) (kL kR msg : List Nat) :
    implCandidate ks kL kR (AesCtr.encrypt ks kL (AesCtr.encrypt ks kR msg 0) 0) = msg := by
  simp [implCandidate, decrypt_encrypt]

theorem chooseCandidate_correct (ks : Keystream) (op : Nat) (lw rw pw : Wire)
    (lv rv : Bool) (hpw : pw.wf)
    (hno00 : (!(lv == false && rv == false) &&
      hasZeroTag (implCandidate ks (if lv then lw.on_key else lw.off_key)
        (if rv then rw.on_key else rw.off_key)
        (assignCiphertexts ks op lw rw pw).1)) = false)
    (hno01 : (!(lv == false && rv == true) &&
      hasZeroTag (implCandidate ks (if lv then lw.on_key else lw.off_key)
        (if rv then rw.on_key else rw.off_key)
        (assignCiphertexts ks op lw rw pw).2.1)) = false)
    (hno10 : (!(lv == true && rv == false) &&
      hasZeroTag (implCandidate ks (if lv then lw.on_key else lw.off_key)
        (if rv then rw.on_key else rw.off_key)
        (assignCiphertexts ks op lw rw pw).2.2.1)) = false)
    (_hno11 : (!(lv == true && rv == true) &&
      hasZeroTag (implCandidate ks (if lv then lw.on_key else lw.off_key)
        (if rv then rw.on_key else rw.off_key)
        (assignCiphertexts ks op lw rw pw).2.2.2)) = false) :
    (chooseCandidate
        (implCandidate ks (if lv then lw.on_key else lw.off_key)
          (if rv then rw.on_key else rw.off_key) (assignCiphertexts ks op lw rw pw).1)
        (implCandidate ks (if lv then lw.on_key else lw.off_key)
          (if rv then rw.on_key else rw.off_key) (assignCiphertexts ks op lw rw pw).2.1)
        (implCandidate ks (if lv then lw.on_key else lw.off_key)
          (if rv then rw.on_key else rw.off_key) (assignCiphertexts ks op lw rw pw).2.2.1)
        (implCandidate ks (if lv then lw.on_key else lw.off_key)
          (if rv then rw.on_key else rw.off_key)
          (assignCiphertexts ks op lw rw pw).2.2.2)).take KEY_SIZE =
      if gateSem op lv rv then pw.on_key else pw.off_key := by
  obtain ⟨hon, hoff⟩ := hpw
  have htake : ∀ (c : Bool),
      ((if c then pw.on_key else pw.off_key) ++ List.replicate KEY_SIZE 0).take KEY_SIZE =
        if c then pw.on_key else pw.off_key := by
    intro c
    cases c
    · exact List.take_left' hoff
    · exact List.take_left' hon
  cases lv <;> cases rv <;>
    simp only [Bool.and_self, Bool.and_false, Bool.false_and, Bool.and_true, Bool.true_and,
      beq_self_eq_true, Bool.not_true, Bool.not_false, Bool.false_eq_true, if_false, if_true,
      Bool.true_eq_false, beq_iff_eq, Bool.true_and, Bool.false_and] at hno00 hno01 hno10 ⊢
  case false.false =>
    rw [show (assignCiphertexts ks op lw rw pw).1 =
        AesCtr.encrypt ks lw.off_key (AesCtr.encrypt ks rw.off_key
          ((if (op &&& 1) != 0 then pw.on_key else pw.off_key) ++
            List.replicate KEY_SIZE 0) 0) 0 from rfl,
      implCandidate_encrypt, chooseCandidate, if_pos (hasZeroTag_append _), htake]
    have h1 : op &&& 1 = op &&& 2 ^ 0 := by norm_num
    simp [gateSem, h1, and_mask_testBit, Nat.shiftLeft_zero]
  case false.true =>
    rw [show (assignCiphertexts ks op lw rw pw).2.1 =
        AesCtr.encrypt ks lw.off_key (AesCtr.encrypt ks rw.on_key
          ((if (op &&& 2) != 0 then pw.on_key else pw.off_key) ++
            List.replicate KEY_SIZE 0) 0) 0 from rfl,
      implCandidate_encrypt, chooseCandidate, if_neg, if_pos (hasZeroTag_append _), htake]
    · have h2 : op &&& 2 = op &&& 2 ^ 1 := by norm_num
      have hsh : (1 : Nat) <<< 1 = 2 ^ 1 := by decide
      simp [gateSem, h2, and_mask_testBit, hsh]
    · simpa using hno00
  case true.false =>
    rw [show (assignCiphertexts ks op lw rw pw).2.2.1 =
        AesCtr.encrypt ks lw.on_key (AesCtr.encrypt ks rw.off_key
          ((if (op &&& 4) != 0 then pw.on_key else pw.off_key) ++
            List.replicate KEY_SIZE 0) 0) 0 from rfl,
      implCandidate_encrypt, chooseCandidate, if_neg, if_neg, if_pos (hasZeroTag_append _),
      htake]
    · have h4 : op &&& 4 = op &&& 2 ^ 2 := by norm_num
      have hsh : (1 : Nat) <<< 2 = 2 ^ 2 := by decide
      simp [gateSem, h4, and_mask_testBit, hsh]
    · simpa using hno01
    · simpa using hno00
  case true.true =>
    rw [show (assignCiphertexts ks op lw rw pw).2.2.2 =
        AesCtr.encrypt ks lw.on_key (AesCtr.encrypt ks rw.on_key
          ((if (op &&& 8) != 0 then pw.on_key else pw.off_key) ++
            List.replicate KEY_SIZE 0) 0) 0 from rfl,
      implCandidate_encrypt, chooseCandidate, if_neg, if_neg, if_neg, htake]
    · have h8 : op &&& 8 = op &&& 2 ^ 3 := by norm_num
      have hsh : (1 : Nat) <<< 3 = 2 ^ 3 := by decide
      simp [gateSem, h8, and_mask_testBit, hsh]
    · simpa using hno10
    · simpa using hno01
    · simpa using hno00

theorem garble_eval (ks : Keystream) (supply iw : Nat → Wire) (v : List Bool) (m : Nat)
    (hs : ∀ k, (supply k).wf) (hi : ∀ i, (iw i).wf) :
    ∀ (node : Node) (pw : Option Wire) (ctr : Nat),
      (∀ idx ∈ node.inputs, idx < m) →
      (pw.getD dfltWire).wf →
      noFalseTag ks supply iw v node pw ctr = true →
      ((garble ks supply iw node pw ctr).1).toRecv.eval ks (labelVec iw v m) =
        if node.eval v then (nodeWire iw node pw).on_key
        else (nodeWire iw node pw).off_key := by
  intro node
  induction node with
  | input idx =>
    intro pw ctr hidx _ _
    have hlt : idx < m := hidx idx (by simp [Node.inputs])
    simp only [garble, GNode.toRecv, RNode.eval, nodeWire, Node.eval]
    exact labelVec_getD iw v m idx hlt
  | gate op l r ihl ihr =>
    intro pw ctr hidx hpw hnf
    simp only [noFalseTag] at hnf
    rw [Bool.and_eq_true, Bool.and_eq_true, Bool.not_eq_true',
      Bool.or_eq_false_iff, Bool.or_eq_false_iff, Bool.or_eq_false_iff] at hnf
    obtain ⟨⟨⟨⟨⟨hb1, hb2⟩, hb3⟩, hb4⟩, hrecl⟩, hrecr⟩ := hnf
    have hidxl : ∀ idx ∈ l.inputs, idx < m := by
      intro idx hh
      exact hidx idx (by simp [Node.inputs]; exact Or.inl hh)
    have hidxr : ∀ idx ∈ r.inputs, idx < m := by
      intro idx hh
      exact hidx idx (by simp [Node.inputs]; exact Or.inr hh)
    have hL := ihl (some (childWire supply iw l ctr).1)
      (childWire supply iw r (childWire supply iw l ctr).2).2 hidxl
      (by simpa using childWire_wf supply iw hs hi l ctr) hrecl
    have hR := ihr (some (childWire supply iw r (childWire supply iw l ctr).2).1)
      (garble ks supply iw l (some (childWire supply iw l ctr).1)
        (childWire supply iw r (childWire supply iw l ctr).2).2).2
      hidxr (by simpa using childWire_wf supply iw hs hi r _) hrecr
    rw [nodeWire_childWire] at hL
    rw [nodeWire_childWire] at hR
    show RNode.eval ks (labelVec iw v m)
      ((garble ks supply iw (.gate op l r) pw ctr).1).toRecv = _
    rw [garble]
    simp only [GNode.toRecv]
    rw [eval_gate_eq, hL, hR]
    exact chooseCandidate_correct ks op (childWire supply iw l ctr).1
      (childWire supply iw r (childWire supply iw l ctr).2).1 (pw.getD dfltWire)
      (l.eval v) (r.eval v) hpw hb1 hb2 hb3 hb4

/-- C1 (amended: the plaintext circuit's root is a gate): garbling a circuit
and evaluating the garbled result on the labels selected for `v` (for each
input index the on label of that input's wire when the input bit is true,
else its off label) yields the root-wire label for `C.evaluate(v)` — all
ones for true, all zeros for false — and decoding any byte of that label
(nonzero means true) gives exactly `C.evaluate(v)`; the hypotheses fix one
choice of garbling randomness and exclude the per-gate `2⁻²⁵⁶` false-tag
event. -/
theorem garbled_circuit_correct (ks : Keystream) (supply iwS : Nat → Wire) (c : Circuit)
    (v : List Bool) (op : Nat) (l r : Node) (hroot : c.out = .gate op l r)
    (hs : ∀ k, (supply k).wf) (hi : ∀ i, (iwS i).wf)
    (hidx : ∀ idx ∈ c.out.inputs, idx < c.n)
    (hnf : noFalseTag ks supply iwS v c.out (some Wire.out_wire) 0 = true) :
    (garbleCircuit ks supply iwS c).out.toRecv.eval ks (labelVec iwS v c.n) =
        (if c.eval v then List.replicate KEY_SIZE 1 else List.replicate KEY_SIZE 0) ∧
      ∀ j, j < KEY_SIZE →
        (((garbleCircuit ks supply iwS c).out.toRecv.eval ks
            (labelVec iwS v c.n)).getD j 0 ≠ 0 ↔ c.eval v = true) := by
  have h := garble_eval ks supply iwS v c.n hs hi c.out (some Wire.out_wire) 0 hidx
    (by constructor <;> simp [Wire.out_wire]) hnf
  have hnw : nodeWire iwS c.out (some Wire.out_wire) = Wire.out_wire := by
    rw [hroot]; rfl
  rw [hnw] at h
  have hmain : (garbleCircuit ks supply iwS c).out.toRecv.eval ks (labelVec iwS v c.n) =
      if c.eval v then List.replicate KEY_SIZE 1 else List.replicate KEY_SIZE 0 := by
    show ((garble ks supply iwS c.out (some Wire.out_wire) 0).1).toRecv.eval ks
      (labelVec iwS v c.n) = _
    rw [h]
    rfl
  refine ⟨hmain, ?_⟩
  intro j hj
  rw [hmain]
  rcases hc : c.eval v
  · simp [List.getD_eq_getElem?_getD, List.getElem?_replicate, hj]
  · simp [List.getD_eq_getElem?_getD, List.getElem?_replicate, hj]

theorem garbled_circuit_correct_witness :
    (garbleCircuit (fun key i => key.headD 7 + 3 * i + 1)
        (fun k => ⟨List.replicate 32 (40 + k), List.replicate 32 (90 + k)⟩)
        (fun i => ⟨List.replicate 32 (10 + i), List.replicate 32 (20 + i)⟩)
        (Circuit.new (.gate 8 (.input 0) (.input 1)))).out.toRecv.eval
        (fun key i => key.headD 7 + 3 * i + 1)
        (labelVec (fun i => ⟨List.replicate 32 (10 + i), List.replicate 32 (20 + i)⟩)
          [true, true] (Circuit.new (.gate 8 (.input 0) (.input 1))).n) =
      List.replicate KEY_SIZE 1 := by
  have h := garbled_circuit_correct (fun key i => key.headD 7 + 3 * i + 1)
    (fun k => ⟨List.replicate 32 (40 + k), List.replicate 32 (90 + k)⟩)
    (fun i => ⟨List.replicate 32 (10 + i), List.replicate 32 (20 + i)⟩)
    (Circuit.new (.gate 8 (.input 0) (.input 1))) [true, true]
    8 (.input 0) (.input 1) rfl
    (fun k => ⟨by simp [KEY_SIZE], by simp [KEY_SIZE]⟩)
    (fun i => ⟨by simp [KEY_SIZE], by simp [KEY_SIZE]⟩)
    (by decide) (by decide)
  rw [h.1]
  rfl

/-- C1 counterexample (the claim as stated, over every plaintext circuit):
for the single-input circuit, garbled evaluation returns the input wire's
label, not a distinguished root label, so decoding a byte of it (nonzero
means true) contradicts `C.evaluate(v)`: here the off label is all ones,
`v = [false]` evaluates to `false`, yet the decoded byte is nonzero. -/
theorem garbled_eval_decode_fails_on_input_root :
    ((garbleCircuit (fun _ _ => 0) (fun _ => Wire.out_wire)
          (fun _ => ⟨List.replicate 32 2, List.replicate 32 1⟩)
          (Circuit.new (.input 0))).out.toRecv.eval (fun _ _ => 0)
        (labelVec (fun _ => ⟨List.replicate 32 2, List.replicate 32 1⟩) [false] 1)).getD 0 0
        ≠ 0 ∧
      (Circuit.new (.input 0)).eval [false] = false := by
  constructor
  · decide
  · rfl

theorem ot_correct_witness :
    ObTransferReceiver.derive_msg ⟨(4, 9), 2, ⟨3, 15⟩⟩
        (ObTransferSender.gen_combined ⟨(7, 11), ⟨⟨3, 15⟩, ⟨3, 15⟩⟩, (4, 9)⟩
          (ObTransferReceiver.blind_idx ⟨(4, 9), 2, ⟨3, 15⟩⟩ 1)) 1 = 11 := by
  have h := ot_correct ⟨⟨3, 15⟩, ⟨3, 15⟩⟩ 7 11 4 9 2 1 rfl
    (by intro x hx; interval_cases x <;> decide)
    (by decide) (by decide) (by decide) (by decide) (by decide)
  simpa using h

theorem gateSem_and (x y : Bool) : gateSem AND_GATE x y = (x && y) := by
  cases x <;> cases y <;> decide

theorem gateSem_or (x y : Bool) : gateSem OR_GATE x y = (x || y) := by
  cases x <;> cases y <;> decide

theorem gateSem_xnor (x y : Bool) : gateSem XNOR_GATE x y = (x == y) := by
  cases x <;> cases y <;> decide

theorem gateSem_my (x y : Bool) : gateSem MY_GATE x y = (x && !y) := by
  cases x <;> cases y <;> decide

theorem mem_range'_iff (s n m : Nat) : m ∈ List.range' s n ↔ s ≤ m ∧ m < s + n := by
  rw [List.mem_range']
  constructor
  · rintro ⟨i, hi, rfl⟩
    omega
  · rintro ⟨h1, h2⟩
    exact ⟨m - s, by omega, by omega⟩

theorem inputVec_getD_left (n a b i : Nat) (h : i < n) :
    (inputVec n a b).getD i false = a.testBit i := by
  rw [inputVec, List.getD_eq_getElem?_getD,
    List.getElem?_append_left (by simpa using h), List.getElem?_map,
    List.getElem?_range h]
  rfl

theorem inputVec_getD_right (n a b i : Nat) (h : i < n) :
    (inputVec n a b).getD (n + i) false = b.testBit i := by
  rw [inputVec, List.getD_eq_getElem?_getD,
    List.getElem?_append_right (by simp), List.getElem?_map]
  simp [List.getElem?_range h]

theorem eval_xNode (n a b j : Nat) (hj : j < n) :
    (xNode n j).eval (inputVec n a b) = (a.testBit j == b.testBit j) := by
  have h1 : (Node.input j).eval (inputVec n a b) = a.testBit j :=
    inputVec_getD_left n a b j hj
  have h2 : (Node.input (n + j)).eval (inputVec n a b) = b.testBit j :=
    inputVec_getD_right n a b j hj
  rw [xNode, eval_gate, h1, h2, gateSem_xnor]

theorem eval_and_fold (n a b : Nat) (js : List Nat) :
    ∀ (acc : Node), (∀ j ∈ js, j < n) →
      ((js.foldl (fun acc j => .gate AND_GATE acc (xNode n j)) acc).eval
          (inputVec n a b)) =
        (acc.eval (inputVec n a b) && js.all fun j => a.testBit j == b.testBit j) := by
  induction js with
  | nil => intro acc _; simp
  | cons j rest ih =>
    intro acc hjs
    rw [List.foldl_cons, ih _ (fun x hx => hjs x (List.mem_cons_of_mem _ hx)),
      List.all_cons]
    rw [eval_gate, gateSem_and, eval_xNode n a b j (hjs j (List.mem_cons_self _ _))]
    rw [Bool.and_assoc]

theorem eval_cmpHatNode (n a b i : Nat) (hi : i < n) :
    (cmpHatNode n i).eval (inputVec n a b) =
      ((a.testBit i && !b.testBit i) &&
        (List.range' (i + 1) (n - (i + 1))).all fun j => a.testBit j == b.testBit j) := by
  rw [cmpHatNode, eval_and_fold n a b _ _ ?_]
  · congr 1
    have h1 : (Node.input i).eval (inputVec n a b) = a.testBit i :=
      inputVec_getD_left n a b i hi
    have h2 : (Node.input (n + i)).eval (inputVec n a b) = b.testBit i :=
      inputVec_getD_right n a b i hi
    rw [eval_gate, h1, h2, gateSem_my]
  · intro j hj
    rw [mem_range'_iff] at hj
    omega

theorem eval_or_fold (n a b : Nat) (is : List Nat) :
    ∀ (acc : Node),
      ((is.foldl (fun o i => .gate OR_GATE o (cmpHatNode n i)) acc).eval
          (inputVec n a b)) =
        (acc.eval (inputVec n a b) ||
          is.any fun i => (cmpHatNode n i).eval (inputVec n a b)) := by
  induction is with
  | nil => intro acc; simp
  | cons i rest ih =>
    intro acc
    rw [List.foldl_cons, ih, List.any_cons, eval_gate, gateSem_or, Bool.or_assoc]

theorem outFold_some (n : Nat) (acc : Node) (is : List Nat) :
    (is.foldl (fun acc i =>
        match acc with
        | some o => some (.gate OR_GATE o (cmpHatNode n i))
        | none => some (cmpHatNode n i)) (some acc)) =
      some (is.foldl (fun o i => .gate OR_GATE o (cmpHatNode n i)) acc) := by
  induction is generalizing acc with
  | nil => rfl
  | cons i rest ih => rw [List.foldl_cons, List.foldl_cons, ih]

theorem eval_outFold (n a b : Nat) (hn : 1 ≤ n) :
    ((outFold n).getD (.input 0)).eval (inputVec n a b) =
      (List.range n).any fun i => (cmpHatNode n i).eval (inputVec n a b) := by
  obtain ⟨m, rfl⟩ : ∃ m, n = m + 1 := ⟨n - 1, by omega⟩
  rw [outFold, List.range_succ, List.reverse_append, List.reverse_cons,
    List.reverse_nil, List.nil_append, List.singleton_append, List.foldl_cons,
    outFold_some, Option.getD_some, eval_or_fold]
  rw [List.any_append, List.any_reverse]
  simp [Bool.or_comm]

theorem any_congr_mem {α : Type} (l : List α) (f g : α → Bool)
    (h : ∀ x ∈ l, f x = g x) : l.any f = l.any g := by
  induction l with
  | nil => rfl
  | cons x rest ih =>
    rw [List.any_cons, List.any_cons, h x (List.mem_cons_self _ _),
      ih fun y hy => h y (List.mem_cons_of_mem _ hy)]

theorem testBit_gt_iff (n a b : Nat) (ha : a < 2 ^ n) (hb : b < 2 ^ n) :
    ((List.range n).any fun i =>
        ((a.testBit i && !b.testBit i) &&
          (List.range' (i + 1) (n - (i + 1))).all fun j =>
            a.testBit j == b.testBit j)) =
      decide (b < a) := by
  have hhigh : ∀ j, n ≤ j → a.testBit j = b.testBit j := by
    intro j hj
    have h2 : (2 : Nat) ^ n ≤ 2 ^ j := Nat.pow_le_pow_right (by omega) hj
    rw [Nat.testBit_eq_false_of_lt (lt_of_lt_of_le ha h2),
      Nat.testBit_eq_false_of_lt (lt_of_lt_of_le hb h2)]
  rw [Bool.eq_iff_iff]
  simp only [List.any_eq_true, List.mem_range, Bool.and_eq_true, List.all_eq_true,
    mem_range'_iff, beq_iff_eq, Bool.not_eq_true', decide_eq_true_eq]
  constructor
  · rintro ⟨i, hin, ⟨hai, hbi⟩, hup⟩
    refine Nat.lt_of_testBit i hbi hai ?_
    intro j hj
    by_cases hjn : j < n
    · exact (hup j ⟨by omega, by omega⟩).symm
    · rw [hhigh j (by omega)]
  · intro hba
    have hne : b ≠ a := Nat.ne_of_lt hba
    have hex : ∃ i, a.testBit i ≠ b.testBit i := by
      by_contra hall
      push_neg at hall
      exact hne (Nat.eq_of_testBit_eq fun i => hall i).symm
    obtain ⟨i0, hi0⟩ := hex
    have hi0n : i0 < n := by
      by_contra hge
      exact hi0 (hhigh i0 (by omega))
    set P : Nat → Prop := fun i => a.testBit i ≠ b.testBit i with hP
    have hPi : P (Nat.findGreatest P n) :=
      Nat.findGreatest_spec (m := i0) (by omega) hi0
    set i := Nat.findGreatest P n with hidef
    have hile : i ≤ n := Nat.findGreatest_le n
    have hup : ∀ j, i < j → a.testBit j = b.testBit j := by
      intro j hj
      by_cases hjn : j ≤ n
      · by_contra hne'
        exact Nat.findGreatest_is_greatest hj hjn hne'
      · exact hhigh j (by omega)
    have hin : i < n := by
      rcases Nat.lt_or_ge i n with h | h
      · exact h
      · exact absurd (hhigh i h) hPi
    have hai : a.testBit i = true := by
      by_contra hfa
      have hfa' : a.testBit i = false := by
        rcases hv : a.testBit i
        · rfl
        · exact absurd hv hfa
      have hbt : b.testBit i = true := by
        rcases hv : b.testBit i
        · exact absurd (by rw [hfa', hv]) hPi
        · rfl
      have : a < b := Nat.lt_of_testBit i hfa' hbt hup
      omega
    have hbi : b.testBit i = false := by
      rcases hv : b.testBit i
      · rfl
      · exact absurd (by rw [hai, hv]) hPi
    exact ⟨i, hin, ⟨hai, hbi⟩, fun j hj => hup j (by omega)⟩

/-- C2: for every `n ≥ 1` and `a, b < 2ⁿ`, the plaintext comparison circuit
built by `construct_circuit n` — garbler's bits of `a` little-endian at
input indices `0..n−1`, receiver's bits of `b` at `n..2n−1` — evaluates to
true exactly when the garbler's integer strictly exceeds the receiver's; in
particular on equal inputs the output bit is 0. -/
theorem construct_circuit_gt (n a b : Nat) (hn : 1 ≤ n) (ha : a < 2 ^ n)
    (hb : b < 2 ^ n) :
    (construct_circuit_plain n).eval (inputVec n a b) = decide (b < a) ∧
      (a = b → (construct_circuit_plain n).eval (inputVec n a b) = false) := by
  have hmain : (construct_circuit_plain n).eval (inputVec n a b) = decide (b < a) := by
    show ((outFold n).getD (.input 0)).eval (inputVec n a b) = decide (b < a)
    rw [eval_outFold n a b hn, ← testBit_gt_iff n a b ha hb]
    apply any_congr_mem
    intro i hi
    rw [List.mem_range] at hi
    exact eval_cmpHatNode n a b i hi
  refine ⟨hmain, ?_⟩
  rintro rfl
  rw [hmain]
  simp

theorem construct_circuit_gt_witness :
    (construct_circuit_plain 2).eval (inputVec 2 2 1) = true := by
  have h := (construct_circuit_gt 2 2 1 (by decide) (by decide) (by decide)).1
  simpa using h

end Millionaire
